import Mathlib

/-!
Shallow embedding of `kerrlib.py`, together with the index-table construction
of `QSS.py` (kerr-squeezing repository), and theorems settling the frozen
claims about them.  Python complex arrays of length `n` become `Fin n → ℂ`,
2-D arrays become `Matrix`, the external `scipy.linalg.expm` becomes the
mathematical matrix exponential `NormedSpace.exp ℂ`, and floating-point
arithmetic is modelled exactly over `ℝ` and `ℂ`.
-/

open Complex Matrix
open scoped Real ComplexConjugate

noncomputable section

namespace Kerrlib

variable {n : ℕ}

/-- Root-of-unity phase `exp (2 π i a / n)` used by the discrete Fourier
transform; the exponent `a` ranges over `ℤ` so that index arithmetic can be
done exactly. -/
def wexp (n : ℕ) (a : ℤ) : ℂ :=
  Complex.exp (2 * (Real.pi : ℂ) * Complex.I * (a : ℂ) / (n : ℂ))

/-- Model of `np.fft.fft`, the numpy forward DFT convention
`X k = Σ j, x j · exp (-2 π i j k / n)`. -/
def fft (x : Fin n → ℂ) : Fin n → ℂ :=
  fun k => ∑ j, x j * wexp n (-((j.val : ℤ) * (k.val : ℤ)))

/-- Model of `np.fft.ifft`, the numpy inverse DFT convention
`x j = (Σ k, X k · exp (2 π i j k / n)) / n`. -/
def ifft (y : Fin n → ℂ) : Fin n → ℂ :=
  fun j => (∑ k, y k * wexp n ((j.val : ℤ) * (k.val : ℤ))) / (n : ℂ)

/-- Index `n / 2` as an element of `Fin n`: the shift amount used by numpy
`fftshift` and `ifftshift` (`np.roll` by `n // 2` respectively `-(n // 2)`). -/
def half (n : ℕ) [NeZero n] : Fin n :=
  ⟨n / 2, Nat.div_lt_self (Nat.pos_of_ne_zero (NeZero.ne n)) one_lt_two⟩

/-- Model of `np.fft.fftshift`: `np.roll(x, n // 2)`, so entry `i` comes from
entry `i - n // 2` (mod `n`) of the input. -/
def fftshift [NeZero n] (x : Fin n → ℂ) : Fin n → ℂ :=
  fun i => x (i - half n)

/-- Model of `np.fft.ifftshift`: `np.roll(x, -(n // 2))`, so entry `i` comes
from entry `i + n // 2` (mod `n`) of the input. -/
def ifftshift [NeZero n] (x : Fin n → ℂ) : Fin n → ℂ :=
  fun i => x (i + half n)

/-- kerrlib `myfft(z, dz)`:
`np.fft.fftshift(np.fft.fft(z) * dz / np.sqrt(2.0 * np.pi))`. -/
def myfft [NeZero n] (z : Fin n → ℂ) (dz : ℝ) : Fin n → ℂ :=
  fftshift (fun t => fft z t * (dz : ℂ) / (Real.sqrt (2 * Real.pi) : ℂ))

/-- kerrlib `myifft(k, dk, n)`:
`np.fft.ifftshift(np.fft.ifft(k) * dk * n / np.sqrt(2.0 * np.pi))`.
The length argument `n` of the source is carried by the index type. -/
def myifft [NeZero n] (k : Fin n → ℂ) (dk : ℝ) : Fin n → ℂ :=
  ifftshift (fun t => ifft k t * (dk : ℂ) * (n : ℂ) / (Real.sqrt (2 * Real.pi) : ℂ))

/-- kerrlib `opD(u, TD, G, kk, dt)`: half dispersion/loss split-step operator,
`np.fft.ifft(np.exp(dt / 2 * (1j * kk ** 2 / (2 * TD))) * np.fft.fft(u)) *
np.exp(dt / 2 * (-G / 2))`. -/
def opD (u : Fin n → ℂ) (TD G : ℝ) (kk : Fin n → ℝ) (dt : ℝ) : Fin n → ℂ :=
  fun i =>
    ifft (fun j =>
      Complex.exp ((dt : ℂ) / 2 * (Complex.I * (kk j : ℂ) ^ 2 / (2 * (TD : ℂ)))) * fft u j) i *
    Complex.exp ((dt : ℂ) / 2 * (-(G : ℂ) / 2))

/-- kerrlib `opN(u, TN, ui, dt)`: full nonlinear split-step operator,
`np.exp(dt * 1j / TN * np.abs(ui) ** 2) * u`. -/
def opN (u : Fin n → ℂ) (TN : ℝ) (ui : Fin n → ℂ) (dt : ℝ) : Fin n → ℂ :=
  fun i => Complex.exp ((dt : ℂ) * Complex.I / (TN : ℂ) * ((Complex.abs (ui i) : ℝ) : ℂ) ^ 2) * u i

/-- kerrlib helper `s(u, TN, dz) = myfft(u ** 2, dz) / TN`. -/
def s [NeZero n] (u : Fin n → ℂ) (TN dz : ℝ) : Fin n → ℂ :=
  fun i => myfft (fun t => u t ^ 2) dz i / (TN : ℂ)

/-- kerrlib helper `m(u, TN, dz) = myfft(np.abs(u) ** 2, dz) / TN`. -/
def m [NeZero n] (u : Fin n → ℂ) (TN dz : ℝ) : Fin n → ℂ :=
  fun i => myfft (fun t => ((Complex.abs (u t) ^ 2 : ℝ) : ℂ)) dz i / (TN : ℂ)

/-- kerrlib `A(u, TD, TN, dz, ks, dk, im, n)`:
`np.diag(np.full(n, ks ** 2 / (2.0 * TD))) + 2.0 * dk * mk[im] / np.sqrt(2 π)`
where `mk = m(u, TN, dz)`. -/
def A [NeZero n] (u : Fin n → ℂ) (TD TN dz : ℝ) (ks : Fin n → ℝ) (dk : ℝ)
    (im : Fin n → Fin n → Fin n) : Matrix (Fin n) (Fin n) ℂ :=
  Matrix.diagonal (fun i => ((ks i ^ 2 / (2 * TD) : ℝ) : ℂ)) +
    Matrix.of fun i j => 2 * (dk : ℂ) * m u TN dz (im i j) / (Real.sqrt (2 * Real.pi) : ℂ)

/-- kerrlib `B(u, TN, dz, dk, ip)`: `dk * sk[ip] / np.sqrt(2 π)` where
`sk = s(u, TN, dz)`. -/
def B [NeZero n] (u : Fin n → ℂ) (TN dz dk : ℝ) (ip : Fin n → Fin n → Fin n) :
    Matrix (Fin n) (Fin n) ℂ :=
  Matrix.of fun i j => (dk : ℂ) * s u TN dz (ip i j) / (Real.sqrt (2 * Real.pi) : ℂ)

/-- kerrlib `Q(u, TD, TN, dz, ks, dk, im, ip, n)`:
`np.block([[a, b], [-b.conj().T, -a.conj()]])`.  The `2n × 2n` block matrix is
indexed by `Fin n ⊕ Fin n`, faithful to the `np.block` layout and the
`K[0:n, 0:n]` / `K[0:n, n:2n]` slices used by the propagators. -/
def Q [NeZero n] (u : Fin n → ℂ) (TD TN dz : ℝ) (ks : Fin n → ℝ) (dk : ℝ)
    (im ip : Fin n → Fin n → Fin n) : Matrix (Fin n ⊕ Fin n) (Fin n ⊕ Fin n) ℂ :=
  Matrix.fromBlocks (A u TD TN dz ks dk im) (B u TN dz dk ip)
    (-(B u TN dz dk ip)ᴴ) (-(A u TD TN dz ks dk im).map (starRingEnd ℂ))

/-- Model of the external `scipy.linalg.expm`: the matrix exponential. -/
def expm (X : Matrix (Fin n ⊕ Fin n) (Fin n ⊕ Fin n) ℂ) :
    Matrix (Fin n ⊕ Fin n) (Fin n ⊕ Fin n) ℂ :=
  NormedSpace.exp ℂ X

/-- One iteration of the `P_no_loss` loop body (kerrlib lines 270-275): the
three field sub-steps with `G = 0`, then left-multiplication of the
accumulated transfer matrix by `expm(1j * dt * Q(u, ...))`. -/
def noLossStep [NeZero n] (TD TN dz : ℝ) (kk ks : Fin n → ℝ) (dk : ℝ)
    (im ip : Fin n → Fin n → Fin n) (dt : ℝ)
    (st : (Fin n → ℂ) × Matrix (Fin n ⊕ Fin n) (Fin n ⊕ Fin n) ℂ) :
    (Fin n → ℂ) × Matrix (Fin n ⊕ Fin n) (Fin n ⊕ Fin n) ℂ :=
  let ui := st.1
  let u1 := opD st.1 TD 0 kk dt
  let u2 := opN u1 TN ui dt
  let u3 := opD u2 TD 0 kk dt
  (u3, expm ((Complex.I * (dt : ℂ)) • Q u3 TD TN dz ks dk im ip) * st.2)

/-- State of the `P_no_loss` loop after a given number of iterations, starting
from the input field and `K = np.identity(2 * n)`. -/
def noLossIter [NeZero n] (u : Fin n → ℂ) (TD TN dz : ℝ) (kk ks : Fin n → ℝ) (dk : ℝ)
    (im ip : Fin n → Fin n → Fin n) (dt : ℝ) :
    ℕ → (Fin n → ℂ) × Matrix (Fin n ⊕ Fin n) (Fin n ⊕ Fin n) ℂ
  | 0 => (u, 1)
  | t + 1 => noLossStep TD TN dz kk ks dk im ip dt (noLossIter u TD TN dz kk ks dk im ip dt t)

/-- kerrlib `P_no_loss(u, TD, TN, dz, kk, ks, dk, im, ip, tf, dt, n)`:
run the loop `tf` times, then extract `U = K[0:n, 0:n]`, `W = K[0:n, n:2n]`
and return `(u, U @ W.T, W.conj() @ W.T)`.  The `UWcheck` / `MNcheck` flags of
the source only print diagnostics and never change the returned value, so they
are not part of the embedding. -/
def P_no_loss [NeZero n] (u : Fin n → ℂ) (TD TN dz : ℝ) (kk ks : Fin n → ℝ) (dk : ℝ)
    (im ip : Fin n → Fin n → Fin n) (tf : ℕ) (dt : ℝ) :
    (Fin n → ℂ) × Matrix (Fin n) (Fin n) ℂ × Matrix (Fin n) (Fin n) ℂ :=
  let st := noLossIter u TD TN dz kk ks dk im ip dt tf
  let U := st.2.toBlocks₁₁
  let W := st.2.toBlocks₁₂
  (st.1, U * Wᵀ, W.map (starRingEnd ℂ) * Wᵀ)

/-- One iteration of the `P_loss` loop body (kerrlib lines 323-344): the three
field sub-steps with loss rate `G`, a fresh `K = expm(1j * dt * Q(u, ...))`,
the update of `M`, then the update of `N` which (as in the source) reads the
already-updated `M`, and finally the damping of both by `1 - G * dt`. -/
def lossStep [NeZero n] (TD TN G dz : ℝ) (kk ks : Fin n → ℝ) (dk : ℝ)
    (im ip : Fin n → Fin n → Fin n) (dt : ℝ)
    (st : (Fin n → ℂ) × Matrix (Fin n) (Fin n) ℂ × Matrix (Fin n) (Fin n) ℂ) :
    (Fin n → ℂ) × Matrix (Fin n) (Fin n) ℂ × Matrix (Fin n) (Fin n) ℂ :=
  let ui := st.1
  let u1 := opD st.1 TD G kk dt
  let u2 := opN u1 TN ui dt
  let u3 := opD u2 TD G kk dt
  let K := expm ((Complex.I * (dt : ℂ)) • Q u3 TD TN dz ks dk im ip)
  let U := K.toBlocks₁₁
  let W := K.toBlocks₁₂
  let M1 := U * st.2.1 * Uᵀ + W * st.2.1.map (starRingEnd ℂ) * Wᵀ + W * st.2.2 * Uᵀ +
    U * st.2.2ᵀ * Wᵀ + U * Wᵀ
  let N1 := W.map (starRingEnd ℂ) * M1 * Uᵀ + U.map (starRingEnd ℂ) * M1.map (starRingEnd ℂ) * Wᵀ +
    U.map (starRingEnd ℂ) * st.2.2 * Uᵀ + W.map (starRingEnd ℂ) * st.2.2ᵀ * Wᵀ +
    W.map (starRingEnd ℂ) * Wᵀ
  (u3, ((1 - G * dt : ℝ) : ℂ) • M1, ((1 - G * dt : ℝ) : ℂ) • N1)

/-- State of the `P_loss` loop after a given number of iterations, starting
from the input field and `M = N = 0`. -/
def lossIter [NeZero n] (u : Fin n → ℂ) (TD TN G dz : ℝ) (kk ks : Fin n → ℝ) (dk : ℝ)
    (im ip : Fin n → Fin n → Fin n) (dt : ℝ) :
    ℕ → (Fin n → ℂ) × Matrix (Fin n) (Fin n) ℂ × Matrix (Fin n) (Fin n) ℂ
  | 0 => (u, 0, 0)
  | t + 1 => lossStep TD TN G dz kk ks dk im ip dt (lossIter u TD TN G dz kk ks dk im ip dt t)

/-- kerrlib `P_loss(u, TD, TN, G, dz, kk, ks, dk, im, ip, tf, dt, n)`: run the
lossy loop `tf` times and return the final `(u, M, N)`. -/
def P_loss [NeZero n] (u : Fin n → ℂ) (TD TN G dz : ℝ) (kk ks : Fin n → ℝ) (dk : ℝ)
    (im ip : Fin n → Fin n → Fin n) (tf : ℕ) (dt : ℝ) :
    (Fin n → ℂ) × Matrix (Fin n) (Fin n) ℂ × Matrix (Fin n) (Fin n) ℂ :=
  lossIter u TD TN G dz kk ks dk im ip dt tf

/-- One iteration of the `P_Nico` loop body (kerrlib lines 385-389): identical
to `noLossStep` except that the field sub-steps use the loss rate `G`. -/
def nicoStep [NeZero n] (TD TN G dz : ℝ) (kk ks : Fin n → ℝ) (dk : ℝ)
    (im ip : Fin n → Fin n → Fin n) (dt : ℝ)
    (st : (Fin n → ℂ) × Matrix (Fin n ⊕ Fin n) (Fin n ⊕ Fin n) ℂ) :
    (Fin n → ℂ) × Matrix (Fin n ⊕ Fin n) (Fin n ⊕ Fin n) ℂ :=
  let ui := st.1
  let u1 := opD st.1 TD G kk dt
  let u2 := opN u1 TN ui dt
  let u3 := opD u2 TD G kk dt
  (u3, expm ((Complex.I * (dt : ℂ)) • Q u3 TD TN dz ks dk im ip) * st.2)

/-- State of the `P_Nico` loop after a given number of iterations, starting
from the input field and `K = np.identity(2 * n)`. -/
def nicoIter [NeZero n] (u : Fin n → ℂ) (TD TN G dz : ℝ) (kk ks : Fin n → ℝ) (dk : ℝ)
    (im ip : Fin n → Fin n → Fin n) (dt : ℝ) :
    ℕ → (Fin n → ℂ) × Matrix (Fin n ⊕ Fin n) (Fin n ⊕ Fin n) ℂ
  | 0 => (u, 1)
  | t + 1 => nicoStep TD TN G dz kk ks dk im ip dt (nicoIter u TD TN G dz kk ks dk im ip dt t)

/-- kerrlib `P_Nico(u, TD, TN, G, dz, kk, ks, dk, im, ip, tf, dt, n)`: the
accumulated-transfer-matrix loop with loss rate `G` in the field sub-steps,
then `M = U @ W.T`, `N = W.conj() @ W.T`, both scaled once by
`np.exp(-G * dt * tf)`. -/
def P_Nico [NeZero n] (u : Fin n → ℂ) (TD TN G dz : ℝ) (kk ks : Fin n → ℝ) (dk : ℝ)
    (im ip : Fin n → Fin n → Fin n) (tf : ℕ) (dt : ℝ) :
    (Fin n → ℂ) × Matrix (Fin n) (Fin n) ℂ × Matrix (Fin n) (Fin n) ℂ :=
  let st := nicoIter u TD TN G dz kk ks dk im ip dt tf
  let U := st.2.toBlocks₁₁
  let W := st.2.toBlocks₁₂
  (st.1, ((Real.exp (-G * dt * (tf : ℝ)) : ℝ) : ℂ) • (U * Wᵀ),
    ((Real.exp (-G * dt * (tf : ℝ)) : ℝ) : ℂ) • (W.map (starRingEnd ℂ) * Wᵀ))

/-- Names bound at module level in `kerrlib.py` (its imports and its top-level
function definitions); python resolves a global name against these.  `Dcheck`,
read by `P_mean_field`, is not among them. -/
def kerrlibGlobalNames : List String :=
  ["np", "expm", "gaussian", "sech", "rect", "lorentzian", "FWHM", "myfft", "myifft",
   "opD", "opN", "P_mean_field", "s", "m", "A", "B", "Q", "P_no_loss", "P_loss", "P_Nico",
   "norm_check", "expected_squeezing_g"]

/-- kerrlib `P_mean_field(u, TD, TN, G, zz, dz, kk, N, dt)`.  Its first
statement evaluates the global name `Dcheck`; python raises `NameError` when
the name is not bound at module level, so the embedding returns `Except` and
only reaches the split-step loop if the lookup succeeds. -/
def P_mean_field (u : Fin n → ℂ) (TD TN G : ℝ) (zz : Fin n → ℝ) (dz : ℝ)
    (kk : Fin n → ℝ) (NN : ℕ) (dt : ℝ) : Except String (Fin n → ℂ) :=
  if "Dcheck" ∈ kerrlibGlobalNames then
    Except.ok ((fun v => opD (opN (opD v TD G kk dt) TN v dt) TD G kk dt)^[NN] u)
  else
    Except.error "NameError: name Dcheck is not defined"

/-- The centred reciprocal-space grid built by `qss.__init__` for odd
`n = 2 h + 1`: `ks = np.fft.fftshift(np.fft.fftfreq(n, d=dz) * 2 π)`, whose
entry `j` is exactly `(j - h) * dk`. -/
def ksGrid (h : ℕ) (dk : ℝ) : Fin (2 * h + 1) → ℝ :=
  fun j => ((j : ℝ) - (h : ℝ)) * dk

/-- Clipping of an integer grid offset into `[0, n - 1]` for `n = 2 h + 1`:
`np.clip(z, 0, n - 1).astype(int)`. -/
def clipIdx (h : ℕ) (z : ℤ) : Fin (2 * h + 1) :=
  ⟨(min ((2 : ℤ) * h) (max 0 z)).toNat, by omega⟩

/-- The frequency-difference index table built by `qss.evolution`
(QSS lines 86-89): with `xx[i, j] = ks[j]` and `yy[i, j] = ks[i]` from
`np.meshgrid`, `im[i, j] = clip(rint((ks[j] - ks[i]) / dk) + (n - 1) / 2)`,
which is exactly `clip(j - i + h)`. -/
def imTab (h : ℕ) : Fin (2 * h + 1) → Fin (2 * h + 1) → Fin (2 * h + 1) :=
  fun i j => clipIdx h ((j : ℤ) - (i : ℤ) + (h : ℤ))

/-- The frequency-sum index table built by `qss.evolution` (QSS lines 86-90):
`ip[i, j] = clip(rint((ks[j] + ks[i]) / dk) + (n - 1) / 2)`, which is exactly
`clip(i + j - h)`. -/
def ipTab (h : ℕ) : Fin (2 * h + 1) → Fin (2 * h + 1) → Fin (2 * h + 1) :=
  fun i j => clipIdx h ((i : ℤ) + (j : ℤ) - (h : ℤ))

/-- Simultaneous-update variant of the `P_loss` loop body, following the words
of the spec (section 4.3, Lossy variant): the `M` and `N` appearing on the
right-hand sides of both moment updates are the pre-step values.  This is
stated only to compare `P_loss` against the claimed recursion; it is not a
translation of the source. -/
def lossStepSpec [NeZero n] (TD TN G dz : ℝ) (kk ks : Fin n → ℝ) (dk : ℝ)
    (im ip : Fin n → Fin n → Fin n) (dt : ℝ)
    (st : (Fin n → ℂ) × Matrix (Fin n) (Fin n) ℂ × Matrix (Fin n) (Fin n) ℂ) :
    (Fin n → ℂ) × Matrix (Fin n) (Fin n) ℂ × Matrix (Fin n) (Fin n) ℂ :=
  let ui := st.1
  let u1 := opD st.1 TD G kk dt
  let u2 := opN u1 TN ui dt
  let u3 := opD u2 TD G kk dt
  let K := expm ((Complex.I * (dt : ℂ)) • Q u3 TD TN dz ks dk im ip)
  let U := K.toBlocks₁₁
  let W := K.toBlocks₁₂
  let M1 := U * st.2.1 * Uᵀ + W * st.2.1.map (starRingEnd ℂ) * Wᵀ + W * st.2.2 * Uᵀ +
    U * st.2.2ᵀ * Wᵀ + U * Wᵀ
  let N1 := W.map (starRingEnd ℂ) * st.2.1 * Uᵀ +
    U.map (starRingEnd ℂ) * st.2.1.map (starRingEnd ℂ) * Wᵀ +
    U.map (starRingEnd ℂ) * st.2.2 * Uᵀ + W.map (starRingEnd ℂ) * st.2.2ᵀ * Wᵀ +
    W.map (starRingEnd ℂ) * Wᵀ
  (u3, ((1 - G * dt : ℝ) : ℂ) • M1, ((1 - G * dt : ℝ) : ℂ) • N1)

/-- Iterated `lossStepSpec`, starting from the input field and `M = N = 0`. -/
def lossIterSpec [NeZero n] (u : Fin n → ℂ) (TD TN G dz : ℝ) (kk ks : Fin n → ℝ) (dk : ℝ)
    (im ip : Fin n → Fin n → Fin n) (dt : ℝ) :
    ℕ → (Fin n → ℂ) × Matrix (Fin n) (Fin n) ℂ × Matrix (Fin n) (Fin n) ℂ
  | 0 => (u, 0, 0)
  | t + 1 => lossStepSpec TD TN G dz kk ks dk im ip dt (lossIterSpec u TD TN G dz kk ks dk im ip dt t)

/-- The lossy propagator as the spec describes it: `P_loss` with the
simultaneous moment recursion of `lossStepSpec`. -/
def P_loss_spec [NeZero n] (u : Fin n → ℂ) (TD TN G dz : ℝ) (kk ks : Fin n → ℝ) (dk : ℝ)
    (im ip : Fin n → Fin n → Fin n) (tf : ℕ) (dt : ℝ) :
    (Fin n → ℂ) × Matrix (Fin n) (Fin n) ℂ × Matrix (Fin n) (Fin n) ℂ :=
  lossIterSpec u TD TN G dz kk ks dk im ip dt tf

/-- The accumulated-transfer-matrix computation of `P_no_loss` generalized
with loss rate `G` in the field sub-steps and no final scaling (the loop of
`P_Nico` followed by the `M = U Wᵀ`, `N = conj W · Wᵀ` extraction); used to
state how `P_Nico` relates to `P_no_loss`. -/
def accumRun [NeZero n] (u : Fin n → ℂ) (TD TN G dz : ℝ) (kk ks : Fin n → ℝ) (dk : ℝ)
    (im ip : Fin n → Fin n → Fin n) (tf : ℕ) (dt : ℝ) :
    (Fin n → ℂ) × Matrix (Fin n) (Fin n) ℂ × Matrix (Fin n) (Fin n) ℂ :=
  let st := nicoIter u TD TN G dz kk ks dk im ip dt tf
  let U := st.2.toBlocks₁₁
  let W := st.2.toBlocks₁₂
  (st.1, U * Wᵀ, W.map (starRingEnd ℂ) * Wᵀ)

/-- Concrete length-3 input (the discrete delta at index 0) exhibiting the
failure of the `myifft`/`myfft` round trip. -/
def x0 : Fin 3 → ℂ := fun j => if j = 0 then 1 else 0

/-- Concrete length-1 field (constant 1) used for the lossy-recursion
counterexamples. -/
def uOne : Fin 1 → ℂ := fun _ => 1

/-- Concrete natural-order frequency grid (all zero) for `n = 1`. -/
def kkZ : Fin 1 → ℝ := fun _ => 0

/-- Concrete centred frequency grid (value 1) for `n = 1`. -/
def ksO : Fin 1 → ℝ := fun _ => 1

/-- The unique index table for `n = 1`. -/
def tab1 : Fin 1 → Fin 1 → Fin 1 := fun _ _ => 0

/-- The field after one split-step of the `n = 1` counterexample run:
`exp(i)` times the constant-1 input. -/
def uStar : Fin 1 → ℂ := fun _ => Complex.exp Complex.I

/-- The matrix `1j * dt * Q(u, ...)` arising in the first step of the `n = 1`
counterexample run; it squares to zero, so its exponential is `1 + XX`. -/
def XX : Matrix (Fin 1 ⊕ Fin 1) (Fin 1 ⊕ Fin 1) ℂ :=
  (Complex.I * ((1 : ℝ) : ℂ)) • Q uStar (-1) 1 1 ksO Real.pi tab1 tab1

/-- C10: for every input, `P_mean_field` resolves the undefined module global
`Dcheck`, so it returns a name-resolution error before performing any
propagation step and never returns a propagated field. -/
theorem P_mean_field_always_name_error (u : Fin n → ℂ) (TD TN G : ℝ) (zz : Fin n → ℝ)
    (dz : ℝ) (kk : Fin n → ℝ) (NN : ℕ) (dt : ℝ) :
    P_mean_field u TD TN G zz dz kk NN dt =
      Except.error "NameError: name Dcheck is not defined" := by
  rw [P_mean_field, if_neg (by decide)]

/-- C4: in `P_no_loss` the transfer matrix starts as the identity, each step
left-multiplies it by `expm(1j * dt * Q(post-step field))`, the returned
moments are `M = U Wᵀ` and `N = conj W · Wᵀ` for `U`, `W` the top-left and
top-right blocks of the final transfer matrix, and for `tf = 0` the transfer
matrix is still the identity, so `U = 1`, `W = 0`, `M = 0` and `N = 0`. -/
theorem P_no_loss_transfer_structure [NeZero n] (u : Fin n → ℂ) (TD TN dz : ℝ)
    (kk ks : Fin n → ℝ) (dk : ℝ) (im ip : Fin n → Fin n → Fin n) (dt : ℝ) :
    (noLossIter u TD TN dz kk ks dk im ip dt 0).2 = 1 ∧
    (∀ t, (noLossIter u TD TN dz kk ks dk im ip dt (t + 1)).2 =
      expm ((Complex.I * (dt : ℂ)) •
          Q (noLossIter u TD TN dz kk ks dk im ip dt (t + 1)).1 TD TN dz ks dk im ip) *
        (noLossIter u TD TN dz kk ks dk im ip dt t).2) ∧
    (∀ tf, P_no_loss u TD TN dz kk ks dk im ip tf dt =
      ((noLossIter u TD TN dz kk ks dk im ip dt tf).1,
       (noLossIter u TD TN dz kk ks dk im ip dt tf).2.toBlocks₁₁ *
         ((noLossIter u TD TN dz kk ks dk im ip dt tf).2.toBlocks₁₂)ᵀ,
       ((noLossIter u TD TN dz kk ks dk im ip dt tf).2.toBlocks₁₂).map (starRingEnd ℂ) *
         ((noLossIter u TD TN dz kk ks dk im ip dt tf).2.toBlocks₁₂)ᵀ)) ∧
    (1 : Matrix (Fin n ⊕ Fin n) (Fin n ⊕ Fin n) ℂ).toBlocks₁₁ = 1 ∧
    (1 : Matrix (Fin n ⊕ Fin n) (Fin n ⊕ Fin n) ℂ).toBlocks₁₂ = 0 ∧
    P_no_loss u TD TN dz kk ks dk im ip 0 dt = (u, 0, 0) := by
  have hone : (1 : Matrix (Fin n ⊕ Fin n) (Fin n ⊕ Fin n) ℂ).toBlocks₁₁ = 1 ∧
      (1 : Matrix (Fin n ⊕ Fin n) (Fin n ⊕ Fin n) ℂ).toBlocks₁₂ = 0 := by
    rw [← Matrix.fromBlocks_one (l := Fin n) (m := Fin n) (α := ℂ)]
    exact ⟨Matrix.toBlocks_fromBlocks₁₁ _ _ _ _, Matrix.toBlocks_fromBlocks₁₂ _ _ _ _⟩
  refine ⟨rfl, fun t => rfl, fun tf => rfl, hone.1, hone.2, ?_⟩
  show ((u, _ * _, _ * _) :
    (Fin n → ℂ) × Matrix (Fin n) (Fin n) ℂ × Matrix (Fin n) (Fin n) ℂ) = (u, 0, 0)
  rw [show (noLossIter u TD TN dz kk ks dk im ip dt 0).2 = 1 from rfl]
  rw [hone.1, hone.2]
  simp

/-- C5: in each propagation variant one loop iteration applies, in order, a
half dispersion/loss step, a full nonlinear step whose reference field is the
field saved before that half step, a second half dispersion/loss step, and
only then feeds the post-step field to the generator matrix `Q` inside
`expm`. -/
theorem step_ordering [NeZero n] (TD TN G dz : ℝ) (kk ks : Fin n → ℝ) (dk : ℝ)
    (im ip : Fin n → Fin n → Fin n) (dt : ℝ) (u : Fin n → ℂ)
    (K : Matrix (Fin n ⊕ Fin n) (Fin n ⊕ Fin n) ℂ)
    (M N : Matrix (Fin n) (Fin n) ℂ) :
    noLossStep TD TN dz kk ks dk im ip dt (u, K) =
      (opD (opN (opD u TD 0 kk dt) TN u dt) TD 0 kk dt,
       expm ((Complex.I * (dt : ℂ)) •
           Q (opD (opN (opD u TD 0 kk dt) TN u dt) TD 0 kk dt) TD TN dz ks dk im ip) * K) ∧
    nicoStep TD TN G dz kk ks dk im ip dt (u, K) =
      (opD (opN (opD u TD G kk dt) TN u dt) TD G kk dt,
       expm ((Complex.I * (dt : ℂ)) •
           Q (opD (opN (opD u TD G kk dt) TN u dt) TD G kk dt) TD TN dz ks dk im ip) * K) ∧
    lossStep TD TN G dz kk ks dk im ip dt (u, M, N) =
      (let u3 := opD (opN (opD u TD G kk dt) TN u dt) TD G kk dt
       let K1 := expm ((Complex.I * (dt : ℂ)) • Q u3 TD TN dz ks dk im ip)
       let U := K1.toBlocks₁₁
       let W := K1.toBlocks₁₂
       let M1 := U * M * Uᵀ + W * M.map (starRingEnd ℂ) * Wᵀ + W * N * Uᵀ +
         U * Nᵀ * Wᵀ + U * Wᵀ
       let N1 := W.map (starRingEnd ℂ) * M1 * Uᵀ +
         U.map (starRingEnd ℂ) * M1.map (starRingEnd ℂ) * Wᵀ +
         U.map (starRingEnd ℂ) * N * Uᵀ + W.map (starRingEnd ℂ) * Nᵀ * Wᵀ +
         W.map (starRingEnd ℂ) * Wᵀ
       (u3, ((1 - G * dt : ℝ) : ℂ) • M1, ((1 - G * dt : ℝ) : ℂ) • N1)) :=
  ⟨rfl, rfl, rfl⟩

/-- C7: `P_no_loss` is the accumulated-transfer-matrix computation with loss
rate `0`, and `P_Nico` is the same computation with loss rate `G` in the field
sub-steps followed by a single scaling of `M` and `N` by
`exp(-G * dt * tf)`. -/
theorem P_Nico_is_scaled_accumulation [NeZero n] (u : Fin n → ℂ) (TD TN G dz : ℝ)
    (kk ks : Fin n → ℝ) (dk : ℝ) (im ip : Fin n → Fin n → Fin n) (tf : ℕ) (dt : ℝ) :
    P_no_loss u TD TN dz kk ks dk im ip tf dt = accumRun u TD TN 0 dz kk ks dk im ip tf dt ∧
    P_Nico u TD TN G dz kk ks dk im ip tf dt =
      ((accumRun u TD TN G dz kk ks dk im ip tf dt).1,
       ((Real.exp (-G * dt * (tf : ℝ)) : ℝ) : ℂ) •
         (accumRun u TD TN G dz kk ks dk im ip tf dt).2.1,
       ((Real.exp (-G * dt * (tf : ℝ)) : ℝ) : ℂ) •
         (accumRun u TD TN G dz kk ks dk im ip tf dt).2.2) := by
  constructor
  · have hiter : ∀ t, noLossIter u TD TN dz kk ks dk im ip dt t =
        nicoIter u TD TN 0 dz kk ks dk im ip dt t := by
      intro t
      induction t with
      | zero => rfl
      | succ t ih => rw [noLossIter, nicoIter, ih]; rfl
    rw [P_no_loss, accumRun, hiter]
  · rfl

lemma opD_zero (TD G : ℝ) (kk : Fin n → ℝ) (dt : ℝ) : opD (0 : Fin n → ℂ) TD G kk dt = 0 := by
  funext i
  simp [opD, fft, ifft]

lemma opN_zero (TN : ℝ) (ui : Fin n → ℂ) (dt : ℝ) : opN (0 : Fin n → ℂ) TN ui dt = 0 := by
  funext i
  simp [opN]

lemma m_zero [NeZero n] (TN dz : ℝ) : m (0 : Fin n → ℂ) TN dz = 0 := by
  funext i
  simp [m, myfft, fftshift, fft]

lemma s_zero [NeZero n] (TN dz : ℝ) : s (0 : Fin n → ℂ) TN dz = 0 := by
  funext i
  simp [s, myfft, fftshift, fft]

lemma A_zero [NeZero n] (TD TN dz : ℝ) (ks : Fin n → ℝ) (dk : ℝ)
    (im : Fin n → Fin n → Fin n) :
    A (0 : Fin n → ℂ) TD TN dz ks dk im =
      Matrix.diagonal (fun i => ((ks i ^ 2 / (2 * TD) : ℝ) : ℂ)) := by
  rw [A]
  convert add_zero _
  ext i j
  simp [m_zero]

lemma B_zero [NeZero n] (TN dz dk : ℝ) (ip : Fin n → Fin n → Fin n) :
    B (0 : Fin n → ℂ) TN dz dk ip = 0 := by
  ext i j
  simp [B, s_zero]

lemma Q_zero [NeZero n] (TD TN dz : ℝ) (ks : Fin n → ℝ) (dk : ℝ)
    (im ip : Fin n → Fin n → Fin n) :
    Q (0 : Fin n → ℂ) TD TN dz ks dk im ip =
      Matrix.diagonal (Sum.elim (fun i => ((ks i ^ 2 / (2 * TD) : ℝ) : ℂ))
        (fun i => -((ks i ^ 2 / (2 * TD) : ℝ) : ℂ))) := by
  rw [Q, A_zero, B_zero]
  have h2 : -(Matrix.diagonal fun i => ((ks i ^ 2 / (2 * TD) : ℝ) : ℂ)).map (starRingEnd ℂ) =
      Matrix.diagonal fun i => -((ks i ^ 2 / (2 * TD) : ℝ) : ℂ) := by
    rw [Matrix.diagonal_map (map_zero _)]
    simp [Complex.conj_ofReal, map_ofNat]
  rw [h2]
  have h1 : -(0 : Matrix (Fin n) (Fin n) ℂ)ᴴ = 0 := by simp
  rw [h1, Matrix.fromBlocks_diagonal]

lemma noLossIter_field_zero [NeZero n] (TD TN dz : ℝ) (kk ks : Fin n → ℝ) (dk : ℝ)
    (im ip : Fin n → Fin n → Fin n) (dt : ℝ) (t : ℕ) :
    (noLossIter (0 : Fin n → ℂ) TD TN dz kk ks dk im ip dt t).1 = 0 := by
  induction t with
  | zero => rfl
  | succ t ih =>
    rw [noLossIter]
    show opD (opN (opD (noLossIter (0 : Fin n → ℂ) TD TN dz kk ks dk im ip dt t).1 TD 0 kk dt)
      TN (noLossIter (0 : Fin n → ℂ) TD TN dz kk ks dk im ip dt t).1 dt) TD 0 kk dt = 0
    rw [ih, opD_zero, opN_zero, opD_zero]

lemma noLossIter_K_diag [NeZero n] (TD TN dz : ℝ) (kk ks : Fin n → ℝ) (dk : ℝ)
    (im ip : Fin n → Fin n → Fin n) (dt : ℝ) (t : ℕ) :
    ∃ w : Fin n ⊕ Fin n → ℂ,
      (noLossIter (0 : Fin n → ℂ) TD TN dz kk ks dk im ip dt t).2 = Matrix.diagonal w := by
  induction t with
  | zero => exact ⟨1, Matrix.diagonal_one.symm⟩
  | succ t ih =>
    obtain ⟨w, hw⟩ := ih
    have hfield : opD (opN (opD (noLossIter (0 : Fin n → ℂ) TD TN dz kk ks dk im ip dt t).1
        TD 0 kk dt) TN (noLossIter (0 : Fin n → ℂ) TD TN dz kk ks dk im ip dt t).1 dt)
        TD 0 kk dt = 0 := by
      rw [noLossIter_field_zero, opD_zero, opN_zero, opD_zero]
    refine ⟨NormedSpace.exp ℂ ((Complex.I * (dt : ℂ)) •
        Sum.elim (fun i => ((ks i ^ 2 / (2 * TD) : ℝ) : ℂ))
          (fun i => -((ks i ^ 2 / (2 * TD) : ℝ) : ℂ))) * w, ?_⟩
    rw [noLossIter]
    show expm ((Complex.I * (dt : ℂ)) •
        Q (opD (opN (opD (noLossIter (0 : Fin n → ℂ) TD TN dz kk ks dk im ip dt t).1 TD 0 kk dt)
          TN (noLossIter (0 : Fin n → ℂ) TD TN dz kk ks dk im ip dt t).1 dt) TD 0 kk dt)
          TD TN dz ks dk im ip) *
      (noLossIter (0 : Fin n → ℂ) TD TN dz kk ks dk im ip dt t).2 = _
    rw [hfield, Q_zero, hw, ← Matrix.diagonal_smul, expm, Matrix.exp_diagonal,
      Matrix.diagonal_mul_diagonal]
    rfl

/-- C8: with an all-zero input field the field stays zero through the
`P_no_loss` loop, the nonlinear coupling vanishes (`A` is exactly the
dispersion diagonal and `B = 0`), the accumulated transfer matrix stays
block-diagonal (both off-diagonal blocks zero, in particular `W = 0`), and the
returned moments are `M = N = 0` for any number of steps. -/
theorem zero_field_stability [NeZero n] (TD TN dz : ℝ) (kk ks : Fin n → ℝ) (dk : ℝ)
    (im ip : Fin n → Fin n → Fin n) (dt : ℝ) :
    (∀ t, (noLossIter (0 : Fin n → ℂ) TD TN dz kk ks dk im ip dt t).1 = 0) ∧
    A (0 : Fin n → ℂ) TD TN dz ks dk im =
      Matrix.diagonal (fun i => ((ks i ^ 2 / (2 * TD) : ℝ) : ℂ)) ∧
    B (0 : Fin n → ℂ) TN dz dk ip = 0 ∧
    (∀ t, (noLossIter (0 : Fin n → ℂ) TD TN dz kk ks dk im ip dt t).2.toBlocks₁₂ = 0 ∧
          (noLossIter (0 : Fin n → ℂ) TD TN dz kk ks dk im ip dt t).2.toBlocks₂₁ = 0) ∧
    ∀ tf, P_no_loss (0 : Fin n → ℂ) TD TN dz kk ks dk im ip tf dt = (0, 0, 0) := by
  have hblocks : ∀ t, (noLossIter (0 : Fin n → ℂ) TD TN dz kk ks dk im ip dt t).2.toBlocks₁₂ = 0 ∧
      (noLossIter (0 : Fin n → ℂ) TD TN dz kk ks dk im ip dt t).2.toBlocks₂₁ = 0 := by
    intro t
    obtain ⟨w, hw⟩ := noLossIter_K_diag TD TN dz kk ks dk im ip dt t
    rw [hw]
    constructor <;> ext i j <;> simp [Matrix.toBlocks₁₂, Matrix.toBlocks₂₁, Matrix.diagonal]
  refine ⟨noLossIter_field_zero TD TN dz kk ks dk im ip dt,
    A_zero TD TN dz ks dk im, B_zero TN dz dk ip, hblocks, ?_⟩
  intro tf
  have hW := (hblocks tf).1
  simp only [P_no_loss]
  rw [hW, noLossIter_field_zero]
  simp

/-- C2 (amended): in `P_loss`, starting from `M = N = 0`, every step takes
`U`, `W` from a fresh `expm(1j * dt * Q(post-step field))` (no running
product), updates `M` by the stated bilinear formula from the pre-step
moments, then updates `N` by the stated bilinear formula in which the `M`
appearing on the right-hand side is the already-updated (not yet scaled) `M`,
and finally scales both by `1 - G * dt`. -/
theorem P_loss_recursion_sequential [NeZero n] (u : Fin n → ℂ) (TD TN G dz : ℝ)
    (kk ks : Fin n → ℝ) (dk : ℝ) (im ip : Fin n → Fin n → Fin n) (dt : ℝ) :
    lossIter u TD TN G dz kk ks dk im ip dt 0 = (u, 0, 0) ∧
    (∀ tf, P_loss u TD TN G dz kk ks dk im ip tf dt = lossIter u TD TN G dz kk ks dk im ip dt tf) ∧
    ∀ t, lossIter u TD TN G dz kk ks dk im ip dt (t + 1) =
      (let p := lossIter u TD TN G dz kk ks dk im ip dt t
       let u3 := opD (opN (opD p.1 TD G kk dt) TN p.1 dt) TD G kk dt
       let K := expm ((Complex.I * (dt : ℂ)) • Q u3 TD TN dz ks dk im ip)
       let U := K.toBlocks₁₁
       let W := K.toBlocks₁₂
       let M1 := U * p.2.1 * Uᵀ + W * p.2.1.map (starRingEnd ℂ) * Wᵀ + W * p.2.2 * Uᵀ +
         U * p.2.2ᵀ * Wᵀ + U * Wᵀ
       let N1 := W.map (starRingEnd ℂ) * M1 * Uᵀ +
         U.map (starRingEnd ℂ) * M1.map (starRingEnd ℂ) * Wᵀ +
         U.map (starRingEnd ℂ) * p.2.2 * Uᵀ + W.map (starRingEnd ℂ) * p.2.2ᵀ * Wᵀ +
         W.map (starRingEnd ℂ) * Wᵀ
       (u3, ((1 - G * dt : ℝ) : ℂ) • M1, ((1 - G * dt : ℝ) : ℂ) • N1)) :=
  ⟨rfl, fun _ => rfl, fun _ => rfl⟩

lemma wexp_congr (nn : ℕ) (hn : nn ≠ 0) (a b : ℤ) (hab : (nn : ℤ) ∣ a - b) :
    wexp nn a = wexp nn b := by
  obtain ⟨t, ht⟩ := hab
  have hb : (a : ℂ) = (b : ℂ) + (nn : ℂ) * (t : ℂ) := by
    have : a = b + (nn : ℤ) * t := by omega
    exact_mod_cast congrArg (fun z : ℤ => (z : ℂ)) this
  have hnC : (nn : ℂ) ≠ 0 := Nat.cast_ne_zero.mpr hn
  rw [wexp, wexp, hb]
  have hsplit : 2 * (Real.pi : ℂ) * Complex.I * ((b : ℂ) + (nn : ℂ) * (t : ℂ)) / (nn : ℂ) =
      2 * (Real.pi : ℂ) * Complex.I * (b : ℂ) / (nn : ℂ) +
        (t : ℂ) * (2 * (Real.pi : ℂ) * Complex.I) := by
    field_simp
    ring
  rw [hsplit, Complex.exp_add, Complex.exp_int_mul_two_pi_mul_I, mul_one]

lemma conj_wexp (nn : ℕ) (a : ℤ) : conj (wexp nn a) = wexp nn (-a) := by
  rw [wexp, wexp, ← Complex.exp_conj]
  congr 1
  simp [map_ofNat]

lemma conj_fft_real (hn : n ≠ 0) (r : Fin n → ℝ) (k j : Fin n)
    (hkj : (n : ℤ) ∣ (k.val : ℤ) + (j.val : ℤ)) :
    conj (fft (fun t => ((r t : ℝ) : ℂ)) k) = fft (fun t => ((r t : ℝ) : ℂ)) j := by
  rw [fft, fft, map_sum]
  refine Finset.sum_congr rfl fun p _ => ?_
  rw [(starRingEnd ℂ).map_mul, Complex.conj_ofReal, conj_wexp]
  congr 1
  apply wexp_congr n hn
  obtain ⟨c, hc⟩ := hkj
  exact ⟨(p.val : ℤ) * c, by linear_combination (p.val : ℤ) * hc⟩

lemma conjAddC (x y : ℂ) : conj (x + y) = conj x + conj y := (starRingEnd ℂ).map_add x y

lemma conjMulC (x y : ℂ) : conj (x * y) = conj x * conj y := (starRingEnd ℂ).map_mul x y

lemma conjZeroC : conj (0 : ℂ) = (0 : ℂ) := (starRingEnd ℂ).map_zero

lemma half_val (h : ℕ) : (half (2 * h + 1)).val = h := by
  show (2 * h + 1) / 2 = h
  omega

lemma clip_swap (h : ℕ) (i j : Fin (2 * h + 1)) :
    ((imTab h i j) : ℕ) + ((imTab h j i) : ℕ) = 2 * h := by
  have hi := i.isLt
  have hj := j.isLt
  simp only [imTab, clipIdx]
  omega

lemma ipTab_symm (h : ℕ) (i j : Fin (2 * h + 1)) : ipTab h i j = ipTab h j i := by
  simp only [ipTab]
  congr 1
  ring

lemma sub_half_sum_dvd (h : ℕ) (p q : Fin (2 * h + 1)) (hpq : (p : ℕ) + (q : ℕ) = 2 * h) :
    ((2 * h + 1 : ℕ) : ℤ) ∣
      (((p - half (2 * h + 1)) : Fin (2 * h + 1)).val : ℤ) +
        (((q - half (2 * h + 1)) : Fin (2 * h + 1)).val : ℤ) := by
  have hp := Fin.coe_int_sub_eq_ite p (half (2 * h + 1))
  have hq := Fin.coe_int_sub_eq_ite q (half (2 * h + 1))
  have hhv : ((half (2 * h + 1) : Fin (2 * h + 1)) : ℤ) = (h : ℤ) := by
    exact_mod_cast congrArg (fun x : ℕ => (x : ℤ)) (half_val h)
  have hple : ∀ r : Fin (2 * h + 1), (half (2 * h + 1) ≤ r) ↔ (h ≤ (r : ℕ)) := by
    intro r
    rw [Fin.le_def, half_val]
  rw [hhv] at hp hq
  by_cases hcp : half (2 * h + 1) ≤ p <;> by_cases hcq : half (2 * h + 1) ≤ q
  · rw [if_pos hcp] at hp
    rw [if_pos hcq] at hq
    rw [hp, hq]
    exact ⟨0, by push_cast; omega⟩
  · rw [if_pos hcp] at hp
    rw [if_neg hcq] at hq
    rw [hp, hq]
    exact ⟨1, by push_cast; omega⟩
  · rw [if_neg hcp] at hp
    rw [if_pos hcq] at hq
    rw [hp, hq]
    exact ⟨1, by push_cast; omega⟩
  · rw [hple] at hcp hcq
    have := p.isLt
    have := q.isLt
    omega

lemma conj_m_index (h : ℕ) (u : Fin (2 * h + 1) → ℂ) (TN dz : ℝ) (p q : Fin (2 * h + 1))
    (hpq : (p : ℕ) + (q : ℕ) = 2 * h) :
    conj (m u TN dz p) = m u TN dz q := by
  simp only [m, myfft, fftshift]
  rw [map_div₀, map_div₀, conjMulC, Complex.conj_ofReal, Complex.conj_ofReal,
    Complex.conj_ofReal]
  rw [conj_fft_real (by omega) (fun t => Complex.abs (u t) ^ 2)
    (p - half (2 * h + 1)) (q - half (2 * h + 1)) (sub_half_sum_dvd h p q hpq)]

/-- C6: with the index tables built by `qss.evolution` from the symmetric
centred frequency grid (clipped into `[0, n - 1]`, odd `n = 2 h + 1`), the
matrix `A` is Hermitian and the matrix `B` is symmetric, for every complex
field `u`. -/
theorem A_hermitian_and_B_symmetric (h : ℕ) (u : Fin (2 * h + 1) → ℂ) (TD TN dz dk : ℝ) :
    (A u TD TN dz (ksGrid h dk) dk (imTab h))ᴴ = A u TD TN dz (ksGrid h dk) dk (imTab h) ∧
    (B u TN dz dk (ipTab h))ᵀ = B u TN dz dk (ipTab h) := by
  constructor
  · ext i j
    rw [Matrix.conjTranspose_apply, Complex.star_def, A]
    simp only [Matrix.add_apply, Matrix.of_apply]
    rw [conjAddC]
    have hdiag : conj (Matrix.diagonal (fun i => ((ksGrid h dk i ^ 2 / (2 * TD) : ℝ) : ℂ)) j i) =
        Matrix.diagonal (fun i => ((ksGrid h dk i ^ 2 / (2 * TD) : ℝ) : ℂ)) i j := by
      by_cases hij : i = j
      · subst hij
        rw [Matrix.diagonal_apply_eq, Complex.conj_ofReal]
      · rw [Matrix.diagonal_apply_ne _ fun hc => hij (hc.symm),
          Matrix.diagonal_apply_ne _ hij, conjZeroC]
    have hcoup : conj (2 * (dk : ℂ) * m u TN dz (imTab h j i) / (Real.sqrt (2 * Real.pi) : ℂ)) =
        2 * (dk : ℂ) * m u TN dz (imTab h i j) / (Real.sqrt (2 * Real.pi) : ℂ) := by
      rw [map_div₀, conjMulC, conjMulC, Complex.conj_ofReal, Complex.conj_ofReal, map_ofNat]
      rw [conj_m_index h u TN dz (imTab h j i) (imTab h i j) (clip_swap h j i)]
    rw [hdiag, hcoup]
  · ext i j
    rw [Matrix.transpose_apply, B]
    simp only [Matrix.of_apply]
    rw [ipTab_symm h j i]

lemma wexp_zero (nn : ℕ) : wexp nn 0 = 1 := by
  rw [wexp]
  simp

lemma omega_cubic : wexp 3 1 ^ 3 = 1 := by
  rw [wexp, ← Complex.exp_nat_mul]
  rw [show ((3 : ℕ) : ℂ) * (2 * (Real.pi : ℂ) * Complex.I * ((1 : ℤ) : ℂ) / ((3 : ℕ) : ℂ)) =
      2 * (Real.pi : ℂ) * Complex.I by push_cast; field_simp]
  exact Complex.exp_two_pi_mul_I

lemma omega_ne_one : wexp 3 1 ≠ 1 := by
  rw [wexp]
  intro hc
  rw [Complex.exp_eq_one_iff] at hc
  obtain ⟨k, hk⟩ := hc
  have hpi : (Real.pi : ℂ) ≠ 0 := Complex.ofReal_ne_zero.mpr Real.pi_ne_zero
  have h2 : 2 * (Real.pi : ℂ) * Complex.I * (1 - 3 * (k : ℂ)) = 0 := by
    push_cast at hk
    linear_combination 3 * hk
  have h3 : 2 * (Real.pi : ℂ) * Complex.I ≠ 0 :=
    mul_ne_zero (mul_ne_zero two_ne_zero hpi) Complex.I_ne_zero
  have h4 : (1 : ℂ) - 3 * (k : ℂ) = 0 := by
    rcases mul_eq_zero.mp h2 with hcase | hcase
    · exact absurd hcase h3
    · exact hcase
  have h5 : ((1 : ℤ) : ℂ) = ((3 * k : ℤ) : ℂ) := by
    push_cast
    linear_combination h4
  have h6 : (1 : ℤ) = 3 * k := by exact_mod_cast h5
  omega

lemma omega_sum_zero : 1 + wexp 3 1 + wexp 3 1 ^ 2 = 0 := by
  have hfac : (wexp 3 1 - 1) * (1 + wexp 3 1 + wexp 3 1 ^ 2) = wexp 3 1 ^ 3 - 1 := by ring
  rw [omega_cubic, sub_self] at hfac
  rcases mul_eq_zero.mp hfac with hcase | hcase
  · exact absurd (sub_eq_zero.mp hcase) omega_ne_one
  · exact hcase

lemma wexp_three_two : wexp 3 2 = wexp 3 1 ^ 2 := by
  rw [wexp, wexp, ← Complex.exp_nat_mul]
  congr 1
  push_cast
  ring

lemma fft_x0 (k : Fin 3) : fft x0 k = 1 := by
  rw [fft, Fin.sum_univ_three]
  simp [x0, wexp_zero]

lemma myfft_x0 (t : Fin 3) : myfft x0 1 t = 1 / (Real.sqrt (2 * Real.pi) : ℂ) := by
  simp only [myfft, fftshift]
  rw [fft_x0]
  norm_num

/-- C1 fails on the code: `myifft` applies the inverse shift to the real-space
output of `ifft` instead of unshifting the spectrum before `ifft`, so the
round trip with `dk = 2 π / (n dz)` is a phase-modulated cyclic shift, not the
identity.  At `n = 3`, `dz = 1`, input `x0 = (1, 0, 0)`, the round trip yields
`(0, 0, 1) ≠ x0` (entry 0 is `0` while `x0 0 = 1`). -/
theorem myifft_myfft_roundtrip_fails :
    myifft (myfft x0 1) (2 * Real.pi / 3) 0 = 0 ∧ x0 0 = 1 ∧
    myifft (myfft x0 1) (2 * Real.pi / 3) ≠ x0 := by
  have hidx : (0 : Fin 3) + half 3 = 1 := by decide
  have hifft : ifft (myfft x0 1) 1 = 0 := by
    rw [ifft, Fin.sum_univ_three]
    rw [myfft_x0 0, myfft_x0 1, myfft_x0 2]
    have e0 : (((1 : Fin 3).val : ℤ) * ((0 : Fin 3).val : ℤ)) = 0 := by decide
    have e1 : (((1 : Fin 3).val : ℤ) * ((1 : Fin 3).val : ℤ)) = 1 := by decide
    have e2 : (((1 : Fin 3).val : ℤ) * ((2 : Fin 3).val : ℤ)) = 2 := by decide
    rw [e0, e1, e2]
    have hsum : 1 / (Real.sqrt (2 * Real.pi) : ℂ) * wexp 3 0 +
        1 / (Real.sqrt (2 * Real.pi) : ℂ) * wexp 3 1 +
        1 / (Real.sqrt (2 * Real.pi) : ℂ) * wexp 3 2 =
        1 / (Real.sqrt (2 * Real.pi) : ℂ) * (1 + wexp 3 1 + wexp 3 1 ^ 2) := by
      rw [wexp_zero, wexp_three_two]
      ring
    rw [hsum, omega_sum_zero, mul_zero, zero_div]
  have hzero : myifft (myfft x0 1) (2 * Real.pi / 3) 0 = 0 := by
    simp only [myifft, ifftshift]
    rw [hidx, hifft, zero_mul, zero_mul, zero_div]
  refine ⟨hzero, by simp [x0], fun hc => ?_⟩
  have hc0 := congrFun hc 0
  rw [hzero] at hc0
  simp [x0] at hc0

lemma exp_sq_zero {mm : Type*} [Fintype mm] [DecidableEq mm]
    (X : Matrix mm mm ℂ) (hX : X * X = 0) : NormedSpace.exp ℂ X = 1 + X := by
  have hexp : NormedSpace.exp ℂ X = tsum (fun k : ℕ => ((k.factorial : ℂ)⁻¹) • X ^ k) :=
    congrFun NormedSpace.exp_eq_tsum X
  have hvanish : ∀ b ∉ ({0, 1} : Finset ℕ), ((b.factorial : ℂ)⁻¹) • X ^ b = 0 := by
    intro b hb
    have hb2 : 2 ≤ b := by
      rcases b with _ | b
      · simp at hb
      · rcases b with _ | b
        · simp at hb
        · omega
    obtain ⟨c, hc⟩ : ∃ c, b = c + 2 := ⟨b - 2, by omega⟩
    have hzero : X ^ b = 0 := by
      rw [hc, pow_add, pow_two, hX, mul_zero]
    rw [hzero, smul_zero]
  rw [hexp, tsum_eq_sum hvanish]
  rw [show ({0, 1} : Finset ℕ) = insert 0 {1} from rfl]
  rw [Finset.sum_insert (by decide), Finset.sum_singleton]
  norm_num

lemma fin1_fft (v : Fin 1 → ℂ) (k : Fin 1) : fft v k = v 0 := by
  rw [fft, Fin.sum_univ_one]
  have hk : (k.val : ℤ) = 0 := by omega
  simp [hk, wexp_zero]

lemma fin1_ifft (v : Fin 1 → ℂ) (k : Fin 1) : ifft v k = v 0 := by
  rw [ifft, Fin.sum_univ_one]
  have hk : (k.val : ℤ) = 0 := by omega
  simp [hk, wexp_zero]

lemma fin1_opD (v : Fin 1 → ℂ) (TD dt : ℝ) : opD v TD 0 kkZ dt = v := by
  funext i
  have hi : i = 0 := Subsingleton.elim i 0
  subst hi
  rw [opD, fin1_ifft]
  simp [kkZ, fin1_fft]

lemma step_field_eval :
    opD (opN (opD uOne (-1) 0 kkZ 1) 1 uOne 1) (-1) 0 kkZ 1 = uStar := by
  rw [fin1_opD, fin1_opD]
  funext i
  simp [opN, uOne, uStar]

lemma sqrtC_mul_self :
    (Real.sqrt (2 * Real.pi) : ℂ) * (Real.sqrt (2 * Real.pi) : ℂ) = ((2 * Real.pi : ℝ) : ℂ) := by
  rw [← Complex.ofReal_mul, Real.mul_self_sqrt (by positivity)]

lemma sqrtC_ne : (Real.sqrt (2 * Real.pi) : ℂ) ≠ 0 := by
  rw [Complex.ofReal_ne_zero]
  positivity

lemma abs_uStar (t : Fin 1) : Complex.abs (uStar t) ^ 2 = 1 := by
  simp [uStar, Complex.abs_exp]

lemma m_uStar (t : Fin 1) : m uStar 1 1 t = 1 / (Real.sqrt (2 * Real.pi) : ℂ) := by
  simp only [m, myfft, fftshift]
  rw [fin1_fft]
  rw [abs_uStar]
  norm_num

lemma exp_I_sq : Complex.exp Complex.I ^ 2 = Complex.exp (2 * Complex.I) := by
  rw [← Complex.exp_nat_mul]
  norm_num

lemma s_uStar (t : Fin 1) :
    s uStar 1 1 t = Complex.exp (2 * Complex.I) / (Real.sqrt (2 * Real.pi) : ℂ) := by
  simp only [s, myfft, fftshift]
  rw [fin1_fft]
  simp only [uStar, exp_I_sq]
  norm_num

lemma A_eval (i j : Fin 1) : A uStar (-1) 1 1 ksO Real.pi tab1 i j = 1 / 2 := by
  have hi : i = 0 := Subsingleton.elim i 0
  have hj : j = 0 := Subsingleton.elim j 0
  subst hi
  subst hj
  rw [A]
  simp only [Matrix.add_apply, Matrix.of_apply, Matrix.diagonal_apply_eq]
  rw [m_uStar]
  have h2 : 2 * (Real.pi : ℂ) * (1 / (Real.sqrt (2 * Real.pi) : ℂ)) /
      (Real.sqrt (2 * Real.pi) : ℂ) = 1 := by
    rw [mul_one_div, div_div, sqrtC_mul_self, Complex.ofReal_mul]
    have hpi : (Real.pi : ℂ) ≠ 0 := Complex.ofReal_ne_zero.mpr Real.pi_ne_zero
    rw [Complex.ofReal_ofNat]
    field_simp
  rw [h2]
  norm_num [ksO]

lemma B_eval (i j : Fin 1) :
    B uStar 1 1 Real.pi tab1 i j = Complex.exp (2 * Complex.I) / 2 := by
  rw [B]
  simp only [Matrix.of_apply]
  rw [s_uStar]
  have hpi : (Real.pi : ℂ) ≠ 0 := Complex.ofReal_ne_zero.mpr Real.pi_ne_zero
  rw [mul_div_assoc, div_div, sqrtC_mul_self, Complex.ofReal_mul, Complex.ofReal_ofNat]
  field_simp
  ring

lemma conj_exp_twoI :
    conj (Complex.exp (2 * Complex.I)) = Complex.exp (-(2 * Complex.I)) := by
  rw [← Complex.exp_conj]
  congr 1
  rw [conjMulC, Complex.conj_I, map_ofNat]
  ring

lemma exp_twoI_mul_inv :
    Complex.exp (2 * Complex.I) * Complex.exp (-(2 * Complex.I)) = 1 := by
  rw [← Complex.exp_add, add_neg_cancel, Complex.exp_zero]

lemma XX_inl_inl (i j : Fin 1) : XX (Sum.inl i) (Sum.inl j) = Complex.I / 2 := by
  rw [XX, Matrix.smul_apply, Q, Matrix.fromBlocks_apply₁₁, A_eval, smul_eq_mul]
  norm_num
  ring

lemma XX_inl_inr (i j : Fin 1) :
    XX (Sum.inl i) (Sum.inr j) = Complex.I * Complex.exp (2 * Complex.I) / 2 := by
  rw [XX, Matrix.smul_apply, Q, Matrix.fromBlocks_apply₁₂, B_eval, smul_eq_mul]
  norm_num
  ring

lemma XX_inr_inl (i j : Fin 1) :
    XX (Sum.inr i) (Sum.inl j) = -(Complex.I * Complex.exp (-(2 * Complex.I)) / 2) := by
  rw [XX, Matrix.smul_apply, Q, Matrix.fromBlocks_apply₂₁, smul_eq_mul]
  rw [Matrix.neg_apply, Matrix.conjTranspose_apply, Complex.star_def, B_eval]
  rw [map_div₀, conj_exp_twoI, map_ofNat]
  norm_num
  ring

lemma XX_inr_inr (i j : Fin 1) : XX (Sum.inr i) (Sum.inr j) = -(Complex.I / 2) := by
  rw [XX, Matrix.smul_apply, Q, Matrix.fromBlocks_apply₂₂, smul_eq_mul]
  rw [Matrix.neg_apply, Matrix.map_apply, A_eval]
  rw [map_div₀, (starRingEnd ℂ).map_one, map_ofNat]
  norm_num
  ring

lemma XX_sq : XX * XX = 0 := by
  have he := exp_twoI_mul_inv
  ext a b
  rw [Matrix.mul_apply, Fintype.sum_sum_type, Fin.sum_univ_one, Fin.sum_univ_one,
    Matrix.zero_apply]
  rcases a with i | i <;> rcases b with j | j <;>
    simp only [XX_inl_inl, XX_inl_inr, XX_inr_inl, XX_inr_inr]
  · linear_combination (-(Complex.I * Complex.I) / 4) * he
  · ring
  · ring
  · linear_combination (-(Complex.I * Complex.I) / 4) * he

lemma expm_XX : expm XX = 1 + XX := by
  rw [expm]
  exact exp_sq_zero XX XX_sq

lemma K_U : (expm XX).toBlocks₁₁ 0 0 = 1 + Complex.I / 2 := by
  rw [expm_XX]
  show ((1 : Matrix (Fin 1 ⊕ Fin 1) (Fin 1 ⊕ Fin 1) ℂ) + XX) (Sum.inl 0) (Sum.inl 0) = _
  rw [Matrix.add_apply, XX_inl_inl, Matrix.one_apply_eq]

lemma K_W : (expm XX).toBlocks₁₂ 0 0 = Complex.I * Complex.exp (2 * Complex.I) / 2 := by
  rw [expm_XX]
  show ((1 : Matrix (Fin 1 ⊕ Fin 1) (Fin 1 ⊕ Fin 1) ℂ) + XX) (Sum.inl 0) (Sum.inr 0) = _
  rw [Matrix.add_apply, XX_inl_inr, Matrix.one_apply_ne (by simp), zero_add]

lemma conj_K_U : conj ((expm XX).toBlocks₁₁ 0 0) = 1 - Complex.I / 2 := by
  rw [K_U, conjAddC, (starRingEnd ℂ).map_one, map_div₀, Complex.conj_I, map_ofNat]
  ring

lemma conj_K_W :
    conj ((expm XX).toBlocks₁₂ 0 0) = -(Complex.I * Complex.exp (-(2 * Complex.I)) / 2) := by
  rw [K_W, map_div₀, conjMulC, Complex.conj_I, conj_exp_twoI, map_ofNat]
  ring

lemma lossRun_N :
    (P_loss uOne (-1) 1 0 1 kkZ ksO Real.pi tab1 tab1 1 1).2.2 0 0 = 5 / 8 := by
  have he := exp_twoI_mul_inv
  show (lossStep (-1) 1 0 1 kkZ ksO Real.pi tab1 tab1 1 (uOne, 0, 0)).2.2 0 0 = 5 / 8
  simp only [lossStep, step_field_eval]
  rw [show (Complex.I * ((1 : ℝ) : ℂ)) • Q uStar (-1) 1 1 ksO Real.pi tab1 tab1 = XX from rfl]
  simp only [Matrix.transpose_zero, Matrix.map_zero _ conjZeroC, mul_zero, zero_mul,
    zero_add, add_zero]
  simp only [Matrix.smul_apply, Matrix.add_apply, Matrix.mul_apply, Matrix.map_apply,
    Matrix.transpose_apply, Fin.sum_univ_one]
  rw [conjMulC, conj_K_U, conj_K_W, K_U, K_W]
  have hsc : ((1 - 0 : ℝ) : ℂ) = 1 := by norm_num
  rw [hsc, one_smul]
  linear_combination (-(3 * Complex.I ^ 2 / 4 + Complex.I ^ 2 * Complex.I ^ 2 / 8)) * he +
    (-((Complex.I ^ 2 + 5) / 8)) * Complex.I_sq

lemma nolossRun_N :
    (P_no_loss uOne (-1) 1 1 kkZ ksO Real.pi tab1 tab1 1 1).2.2 0 0 = 1 / 4 := by
  have he := exp_twoI_mul_inv
  simp only [P_no_loss, noLossIter, noLossStep, step_field_eval]
  rw [show (Complex.I * ((1 : ℝ) : ℂ)) • Q uStar (-1) 1 1 ksO Real.pi tab1 tab1 = XX from rfl]
  rw [mul_one]
  simp only [Matrix.mul_apply, Matrix.map_apply, Matrix.transpose_apply, Fin.sum_univ_one]
  rw [conj_K_W, K_W]
  linear_combination (-(Complex.I ^ 2) / 4) * he + (-(1 : ℂ) / 4) * Complex.I_sq

lemma specRun_N :
    (P_loss_spec uOne (-1) 1 0 1 kkZ ksO Real.pi tab1 tab1 1 1).2.2 0 0 = 1 / 4 := by
  have he := exp_twoI_mul_inv
  show (lossStepSpec (-1) 1 0 1 kkZ ksO Real.pi tab1 tab1 1 (uOne, 0, 0)).2.2 0 0 = 1 / 4
  simp only [lossStepSpec, step_field_eval]
  rw [show (Complex.I * ((1 : ℝ) : ℂ)) • Q uStar (-1) 1 1 ksO Real.pi tab1 tab1 = XX from rfl]
  simp only [Matrix.transpose_zero, Matrix.map_zero _ conjZeroC, mul_zero, zero_mul,
    zero_add, add_zero]
  simp only [Matrix.smul_apply, Matrix.add_apply, Matrix.mul_apply, Matrix.map_apply,
    Matrix.transpose_apply, Fin.sum_univ_one]
  rw [conj_K_W, K_W]
  have hsc : ((1 - 0 : ℝ) : ℂ) = 1 := by norm_num
  rw [hsc, one_smul]
  linear_combination (-(Complex.I ^ 2) / 4) * he + (-(1 : ℂ) / 4) * Complex.I_sq

/-- C2 fails on the code at a concrete input: with `n = 1`, one step, zero
loss rate, the simultaneous recursion of the claim predicts
`N = conj W · Wᵀ = 1/4` after the first step, while `P_loss`, which feeds the
already-updated `M` into the `N` update, returns `N = 5/8`. -/
theorem P_loss_not_simultaneous_recursion :
    P_loss uOne (-1) 1 0 1 kkZ ksO Real.pi tab1 tab1 1 1 ≠
      P_loss_spec uOne (-1) 1 0 1 kkZ ksO Real.pi tab1 tab1 1 1 := by
  intro hc
  have h2 := congrArg (fun r => r.2.2 0 0) hc
  simp only at h2
  rw [lossRun_N, specRun_N] at h2
  norm_num at h2

/-- C3 fails on the code: at zero loss rate the field components of `P_loss`
and `P_no_loss` agree at every step, but the moments do not: at the concrete
`n = 1`, one-step input, `P_no_loss` returns `N = 1/4` while `P_loss` at
`G = 0` returns `N = 5/8`, because the `N` update of `P_loss` reads the
already-updated `M`. -/
theorem P_loss_zero_loss_diverges_from_P_no_loss :
    (∀ (k : ℕ) [NeZero k] (u : Fin k → ℂ) (TD TN dz : ℝ) (kk ks : Fin k → ℝ) (dk : ℝ)
      (im ip : Fin k → Fin k → Fin k) (dt : ℝ) (t : ℕ),
      (lossIter u TD TN 0 dz kk ks dk im ip dt t).1 =
        (noLossIter u TD TN dz kk ks dk im ip dt t).1) ∧
    (P_loss uOne (-1) 1 0 1 kkZ ksO Real.pi tab1 tab1 1 1).2.2 ≠
      (P_no_loss uOne (-1) 1 1 kkZ ksO Real.pi tab1 tab1 1 1).2.2 := by
  constructor
  · intro k _ u TD TN dz kk ks dk im ip dt t
    induction t with
    | zero => rfl
    | succ t ih =>
      rw [lossIter, noLossIter]
      show opD (opN (opD (lossIter u TD TN 0 dz kk ks dk im ip dt t).1 TD 0 kk dt) TN
          (lossIter u TD TN 0 dz kk ks dk im ip dt t).1 dt) TD 0 kk dt =
        opD (opN (opD (noLossIter u TD TN dz kk ks dk im ip dt t).1 TD 0 kk dt) TN
          (noLossIter u TD TN dz kk ks dk im ip dt t).1 dt) TD 0 kk dt
      rw [ih]
  · intro hc
    have h2 := congrArg (fun M => M 0 0) hc
    simp only at h2
    rw [lossRun_N, nolossRun_N] at h2
    norm_num at h2

theorem P_no_loss_transfer_structure_witness :
    P_no_loss uOne 1 1 1 kkZ ksO 1 tab1 tab1 0 1 = (uOne, 0, 0) :=
  (P_no_loss_transfer_structure uOne 1 1 1 kkZ ksO 1 tab1 tab1 1).2.2.2.2.2

theorem step_ordering_witness :
    noLossStep 1 1 1 kkZ ksO 1 tab1 tab1 1 (uOne, 1) =
      (opD (opN (opD uOne 1 0 kkZ 1) 1 uOne 1) 1 0 kkZ 1,
       expm ((Complex.I * ((1 : ℝ) : ℂ)) •
           Q (opD (opN (opD uOne 1 0 kkZ 1) 1 uOne 1) 1 0 kkZ 1) 1 1 1 ksO 1 tab1 tab1) * 1) :=
  (step_ordering 1 1 0 1 kkZ ksO 1 tab1 tab1 1 uOne 1 0 0).1

theorem P_Nico_is_scaled_accumulation_witness :
    P_no_loss uOne 1 1 1 kkZ ksO 1 tab1 tab1 1 1 =
      accumRun uOne 1 1 0 1 kkZ ksO 1 tab1 tab1 1 1 :=
  (P_Nico_is_scaled_accumulation uOne 1 1 0 1 kkZ ksO 1 tab1 tab1 1 1).1

theorem zero_field_stability_witness :
    B (0 : Fin 1 → ℂ) 1 1 1 tab1 = 0 :=
  (zero_field_stability 1 1 1 kkZ ksO 1 tab1 tab1 1).2.2.1

theorem P_loss_recursion_sequential_witness :
    lossIter uOne 1 1 0 1 kkZ ksO 1 tab1 tab1 1 0 = (uOne, 0, 0) :=
  (P_loss_recursion_sequential uOne 1 1 0 1 kkZ ksO 1 tab1 tab1 1).1

theorem P_loss_zero_loss_diverges_witness :
    (lossIter uOne 1 1 0 1 kkZ ksO 1 tab1 tab1 1 0).1 =
      (noLossIter uOne 1 1 1 kkZ ksO 1 tab1 tab1 1 0).1 :=
  P_loss_zero_loss_diverges_from_P_no_loss.1 1 uOne 1 1 1 kkZ ksO 1 tab1 tab1 1 0

theorem A_hermitian_and_B_symmetric_witness :
    (A uOne 1 1 1 (ksGrid 0 1) 1 (imTab 0))ᴴ = A uOne 1 1 1 (ksGrid 0 1) 1 (imTab 0) :=
  (A_hermitian_and_B_symmetric 0 uOne 1 1 1 1).1

theorem P_mean_field_always_name_error_witness :
    P_mean_field uOne 1 1 0 kkZ 1 kkZ 3 1 =
      Except.error "NameError: name Dcheck is not defined" :=
  P_mean_field_always_name_error uOne 1 1 0 kkZ 1 kkZ 3 1

end Kerrlib
